import Mathlib

/-!
Shallow embedding of the voro3d sources: `src/voronoi.cpp` together with the
`DirVector` helper (`dirVector.h` / `dirVector.cpp`).  Doubles are modelled as
exact rationals (`ℚ`), with `ℝ` where the source calls transcendental
functions (`cbrt`, `sqrt`, `acos`).  The voro++ library is external to the
repository; its per-particle cell computation is abstracted as a function
`compute : ℕ → Option VCell` that supplies, for each particle in insertion
order, the cell data (`vc.p`, `vc.nu`, `vc.ed`, and the vertex strings
`points[v].point()`) which the face-extraction code in `voronoi.cpp` reads,
or `none` when `compute_cell` fails for that particle.
-/

namespace Voro3d

/-- The 3-component vector class of `dirVector.h`; the double components
`i`, `j`, `k` are modelled as exact rationals. -/
structure DirVector where
  i : ℚ
  j : ℚ
  k : ℚ
deriving DecidableEq

/-- Vector subtraction operator of `dirVector.cpp`. -/
def DirVector.sub (a b : DirVector) : DirVector :=
  ⟨a.i - b.i, a.j - b.j, a.k - b.k⟩

/-- Cross-product operator of `dirVector.cpp`. -/
def DirVector.cross (a b : DirVector) : DirVector :=
  ⟨a.j * b.k - b.j * a.k, a.k * b.i - b.k * a.i, a.i * b.j - b.i * a.j⟩

/-- Magnitude of a vector, `sqrt( pow(i,2) + pow(j,2) + pow(k,2) )`
(`dirVector.cpp`). -/
noncomputable def DirVector.magnitude (v : DirVector) : ℝ :=
  Real.sqrt ((v.i : ℝ) ^ 2 + (v.j : ℝ) ^ 2 + (v.k : ℝ) ^ 2)

/-- The free function `dot` of `dirVector.cpp`, exactly as written there:
`( a.i * b.i ) + ( a.j + b.j ) + ( a.k + b.k )`. -/
def dot (a b : DirVector) : ℚ :=
  a.i * b.i + (a.j + b.j) + (a.k + b.k)

/-- The mathematical dot product that the claim (and the comment above `dot`
in the source) describes: `a.i*b.i + a.j*b.j + a.k*b.k`.  Stated from the
spec for comparison with the source function `dot`. -/
def dotSpec (a b : DirVector) : ℚ :=
  a.i * b.i + a.j * b.j + a.k * b.k

/-- The free function `angle_between` of `dirVector.cpp`:
`acos( dot(a,b) / (a.magnitude() * b.magnitude()) )`. -/
noncomputable def angle_between (a b : DirVector) : ℝ :=
  Real.arccos ((dot a b : ℝ) / (a.magnitude * b.magnitude))

/-- The helper `setThreshold` of `voronoi.cpp`: a container dimension smaller
than the hard coded threshold 2 is replaced by 2. -/
def setThreshold (x : ℚ) : ℚ :=
  if x < 2 then 2 else x

/-- `Rcpp::min` over a coordinate vector (nonempty in every reachable use). -/
def vecMin : List ℚ → ℚ
  | [] => 0
  | a :: l => l.foldl min a

/-- `Rcpp::max` over a coordinate vector. -/
def vecMax : List ℚ → ℚ
  | [] => 0
  | a :: l => l.foldl max a

/-- A bounding-box side length after the threshold floor:
`xLength = setThreshold( xMax - xMin )` in `voronoi.cpp`. -/
def axisLength (coords : List ℚ) : ℚ :=
  setThreshold (vecMax coords - vecMin coords)

/-- The per-axis container margin:
`conMarginX = xLength * ( containerRatio - 1 ) / 2`. -/
def conMargin (len ratio : ℚ) : ℚ :=
  len * (ratio - 1) / 2

/-- Low container bound of one axis: `conXMin = xMin - conMarginX`. -/
def conLo (coords : List ℚ) (ratio : ℚ) : ℚ :=
  vecMin coords - conMargin (axisLength coords) ratio

/-- High container bound of one axis: `conXMax = xMax + conMarginX`. -/
def conHi (coords : List ℚ) (ratio : ℚ) : ℚ :=
  vecMax coords + conMargin (axisLength coords) ratio

/-- The per-axis subdivision factor of `voronoi.cpp`:
`cells = cbrt( n / ( 5.6 * xLength * yLength * zLength ) )`. -/
noncomputable def cellsFactor (n : ℕ) (xL yL zL : ℚ) : ℝ :=
  ((n : ℝ) / (5.6 * (xL : ℝ) * (yL : ℝ) * (zL : ℝ))) ^ ((1 : ℝ) / 3)

/-- The C cast `int(d)` on a double: truncation toward zero. -/
noncomputable def cppInt (d : ℝ) : ℤ :=
  if 0 ≤ d then ⌊d⌋ else -⌊-d⌋

/-- One grid dimension: `nx = int( xLength * cells + 1 )`. -/
noncomputable def gridDim (len : ℚ) (cells : ℝ) : ℤ :=
  cppInt ((len : ℝ) * cells + 1)

/-- Number of x-axis divisions of the container built from the input. -/
noncomputable def gridNx (x y z : List ℚ) : ℤ :=
  gridDim (axisLength x)
    (cellsFactor x.length (axisLength x) (axisLength y) (axisLength z))

/-- Number of y-axis divisions of the container built from the input. -/
noncomputable def gridNy (x y z : List ℚ) : ℤ :=
  gridDim (axisLength y)
    (cellsFactor x.length (axisLength x) (axisLength y) (axisLength z))

/-- Number of z-axis divisions of the container built from the input. -/
noncomputable def gridNz (x y z : List ℚ) : ℤ :=
  gridDim (axisLength z)
    (cellsFactor x.length (axisLength x) (axisLength y) (axisLength z))

/-- An edge/topology table of a voro++ `voronoicell`, indexed by vertex (row)
and column, both machine ints.  In row `v`, columns `0 ≤ s < nu v` hold the
neighbour vertices and columns `nu v ≤ s < 2 * nu v` hold the reciprocal
slots.  The table is a total function on machine-int indices. -/
abbrev Ed := ℤ → ℤ → ℤ

/-- The data of one computed voro++ cell that `voronoi.cpp` reads: the vertex
count `vc.p`, the per-vertex degree table `vc.nu`, the edge table `vc.ed`,
and the space-delimited vertex strings `points[v].point()`. -/
structure VCell where
  p : ℤ
  nu : ℤ → ℤ
  ed : Ed
  pts : ℤ → String

/-- voro++ member `cycle_up(a, q)`: the next slot in cyclic order at vertex
`q`, computed as `a == nu[q]-1 ? 0 : a+1`. -/
def cycle_up (c : VCell) (a q : ℤ) : ℤ :=
  if a = c.nu q - 1 then 0 else a + 1

/-- Pointwise table write `ed[v][s] = x`. -/
def edWrite (ed : Ed) (v s x : ℤ) : Ed :=
  fun v2 s2 => if v2 = v ∧ s2 = s then x else ed v2 s2

/-- State threaded through face extraction: the destructively marked edge
table and the polygon strings appended to the polyhedral surface so far,
plus two ghost trace fields that record, without influencing control flow,
the emitted `(ii, kk, mm)` vertex triples and the directed edges
`(vertex, slot)` marked by the in-place negations. -/
structure XState where
  ed : Ed
  polys : List String
  tris : List (ℤ × ℤ × ℤ)
  marks : List (ℤ × ℤ)

/-- The inner `while ( mm != ii )` loop of `voronoi.cpp`, with an explicit
fuel bound; `none` models failure to terminate within the fuel.  Each
iteration emits one closed triangle ring, steps along the face via
`cycle_up`, and negates (marks) the next directed edge. -/
def faceWalk (c : VCell) : ℕ → XState → ℤ → ℤ → ℤ → ℤ → Option XState
  | 0, _, _, _, _, _ => none
  | fuel + 1, st, ii, kk, ll, mm =>
    if mm = ii then some st
    else
      let nn := cycle_up c (st.ed kk (c.nu kk + ll)) mm
      let polygon := "((" ++ c.pts ii ++ ", " ++ c.pts kk ++ ", " ++
        c.pts mm ++ ", " ++ c.pts ii ++ "))"
      let mm2 := st.ed mm nn
      faceWalk c fuel
        ⟨edWrite st.ed mm nn (-1 - mm2), st.polys ++ [polygon],
          st.tris ++ [(ii, kk, mm)], st.marks ++ [(mm, nn)]⟩
        ii mm nn mm2

/-- The body of the slot loop of `voronoi.cpp`
(`kk = vc.ed[ii][jj]; if ( kk >= 0 ) ...`): when the directed edge
`(ii, jj)` is still unmarked, mark it, mark its face successor, and walk the
rest of its face. -/
def processSlot (c : VCell) (fuel : ℕ) (st : XState) (ii jj : ℤ) :
    Option XState :=
  let kk := st.ed ii jj
  if 0 ≤ kk then
    let ed1 := edWrite st.ed ii jj (-1 - kk)
    let ll := cycle_up c (ed1 ii (c.nu ii + jj)) kk
    let mm := ed1 kk ll
    let ed2 := edWrite ed1 kk ll (-1 - mm)
    faceWalk c fuel ⟨ed2, st.polys, st.tris, st.marks ++ [(ii, jj), (kk, ll)]⟩
      ii kk ll mm
  else some st

/-- The index list of a C loop `for ( v = a; v < b; v++ )`. -/
def intRange (a b : ℤ) : List ℤ :=
  (List.range (b - a).toNat).map fun (t : ℕ) => a + (t : ℤ)

/-- The loop `for ( jj = 0; jj < vc.nu[ii]; jj++ )` over one vertex's slots. -/
def slotLoop (c : VCell) (fuel : ℕ) (ii : ℤ) : List ℤ → XState → Option XState
  | [], st => some st
  | jj :: rest, st =>
    match processSlot c fuel st ii jj with
    | none => none
    | some st2 => slotLoop c fuel ii rest st2

/-- The loop `for ( ii = 1; ii < vc.p; ii++ )` over starting vertices. -/
def vertLoop (c : VCell) (fuel : ℕ) : List ℤ → XState → Option XState
  | [], st => some st
  | ii :: rest, st =>
    match slotLoop c fuel ii (intRange 0 (c.nu ii)) st with
    | none => none
    | some st2 => vertLoop c fuel rest st2

/-- The set of directed edges (darts) of a cell: pairs `(v, s)` with
`0 ≤ v < p` and `0 ≤ s < nu v`. -/
def dartFinset (c : VCell) : Finset (ℤ × ℤ) :=
  (Finset.Icc 0 (c.p - 1)).biUnion fun v =>
    (Finset.Icc 0 (c.nu v - 1)).image fun s => (v, s)

/-- Number of directed edges of a cell; a face walk can mark at most one
directed edge per step, so this (plus one) bounds every walk and serves as
the fuel. -/
def dartCount (c : VCell) : ℕ :=
  (dartFinset c).card

/-- Face extraction over a whole cell: the doubly nested loop of
`voronoi.cpp` run on the cell's own edge table, starting from an empty
polygon list. -/
def extractFaces (c : VCell) : Option XState :=
  vertLoop c (dartCount c + 1) (intRange 1 c.p) ⟨c.ed, [], [], []⟩

/-- The triangle-ring text of one emitted face triple, exactly the string
built by the walk: `"((" pts[ii] ", " pts[kk] ", " pts[mm] ", " pts[ii] "))"`. -/
def renderTri (c : VCell) (t : ℤ × ℤ × ℤ) : String :=
  "((" ++ c.pts t.1 ++ ", " ++ c.pts t.2.1 ++ ", " ++ c.pts t.2.2 ++ ", " ++
    c.pts t.1 ++ "))"

/-- Appending one polygon ring to the aggregate string: a separating comma
is inserted unless the aggregate is still the bare prefix. -/
def appendPolygon (ps polygon : String) : String :=
  if ps = "POLYHEDRALSURFACE(" then ps ++ polygon else ps ++ ", " ++ polygon

/-- The list of polygon rings emitted for one cell, when extraction
terminates within fuel. -/
def extractPolys (c : VCell) : Option (List String) :=
  (extractFaces c).map XState.polys

/-- The `POLYHEDRALSURFACE(...)` string of one successful cell; `none` when
the face walk exceeds its fuel (a non-terminating walk on a malformed
table). -/
def serializeCell (c : VCell) : Option String :=
  (extractPolys c).map fun polys =>
    polys.foldl appendPolygon "POLYHEDRALSURFACE(" ++ ")"

/-- One entry of the output vector: `NA_STRING` (modelled `none`) when
`compute_cell` fails for the particle, otherwise the cell's
polyhedral-surface string. -/
def cellResult (compute : ℕ → Option VCell) (p : ℕ) : Option String :=
  match compute p with
  | some c => serializeCell c
  | none => none

/-- The `do ... while ( clo.inc() )` loop over particles: voro++'s
`c_loop_order` over a `particle_order` yields the particles in insertion
order `0, 1, ..., n-1`, and `cGCount` advances once per particle. -/
def cellLoop (compute : ℕ → Option VCell) : List ℕ → List (Option String)
  | [] => []
  | p :: rest => cellResult compute p :: cellLoop compute rest

/-- The exported entry point `voronoi` of `voronoi.cpp`: the three input
validations (`Rcpp::stop` modelled as `Except.error`, with the source's
messages), then one output entry per input point. -/
def voronoi (x y z : List ℚ) (containerRatio : ℚ)
    (compute : ℕ → Option VCell) : Except String (List (Option String)) :=
  let n := x.length
  if n ≠ y.length ∨ n ≠ z.length then
    Except.error "Lengths of coordinate vectors are not equal."
  else if n < 2 then
    Except.error "Cannot generate cells if points are less than 2."
  else if containerRatio < 1 then
    Except.error "Invalid containerRatio: Value must not be less than 1."
  else
    Except.ok (cellLoop compute (List.range n))

/-- Validity of a dart `(v, s)`: row in range, column in the neighbour half
of the row. -/
def vD (c : VCell) (d : ℤ × ℤ) : Prop :=
  0 ≤ d.1 ∧ d.1 < c.p ∧ 0 ≤ d.2 ∧ d.2 < c.nu d.1

instance vD.decidable (c : VCell) (d : ℤ × ℤ) : Decidable (vD c d) := by
  unfold vD
  infer_instance

/-- Target vertex of a dart. -/
def tgt (c : VCell) (d : ℤ × ℤ) : ℤ := c.ed d.1 d.2

/-- The reciprocal slot stored for a dart in the second half of its row. -/
def backSlot (c : VCell) (d : ℤ × ℤ) : ℤ := c.ed d.1 (c.nu d.1 + d.2)

/-- Successor of a dart along its face, as the traversal computes it: step
to the target vertex and take the next slot in cyclic order after the
reciprocal slot. -/
def fnext (c : VCell) (d : ℤ × ℤ) : ℤ × ℤ :=
  (tgt c d, cycle_up c (backSlot c d) (tgt c d))

/-- Well-formedness of a successfully decomposed cell's topology table — the
invariants voro++ guarantees for a valid convex polyhedron: targets in
range, no self loops, valid reciprocal slots, a unique reciprocal for every
directed edge (both components), no parallel directed edges, and simple
faces (along any face orbit, darts with equal source vertices coincide; the
iteration indices are bounded by `dartCount` so the predicate is
decidable). -/
def WellFormed (c : VCell) : Prop :=
  (∀ d ∈ dartFinset c, 0 ≤ tgt c d ∧ tgt c d < c.p) ∧
  (∀ d ∈ dartFinset c, tgt c d ≠ d.1) ∧
  (∀ d ∈ dartFinset c, 0 ≤ backSlot c d ∧ backSlot c d < c.nu (tgt c d)) ∧
  (∀ d ∈ dartFinset c, c.ed (tgt c d) (backSlot c d) = d.1) ∧
  (∀ d ∈ dartFinset c, c.ed (tgt c d) (c.nu (tgt c d) + backSlot c d) = d.2) ∧
  (∀ d ∈ dartFinset c, ∀ e ∈ dartFinset c,
    d.1 = e.1 → tgt c d = tgt c e → d = e) ∧
  (∀ d ∈ dartFinset c, ∀ a ∈ Finset.range (dartCount c + 1),
    ∀ b ∈ Finset.range (dartCount c + 1),
    ((fnext c)^[a] d).1 = ((fnext c)^[b] d).1 →
      (fnext c)^[a] d = (fnext c)^[b] d)

instance WellFormed.decidable (c : VCell) : Decidable (WellFormed c) := by
  unfold WellFormed
  infer_instance

/-- A string is an explicitly closed triangle ring: its last coordinate
triple repeats its first. -/
def RingClosed (s : String) : Prop :=
  ∃ a b c3 : String,
    s = "((" ++ a ++ ", " ++ b ++ ", " ++ c3 ++ ", " ++ a ++ "))"

/-- The marked-table relation: `ed` holds the negated original entry on the
darts of `M` and agrees with the cell's original table everywhere else. -/
def EdMatch (c : VCell) (ed : Ed) (M : Set (ℤ × ℤ)) : Prop :=
  (∀ d ∈ M, ed d.1 d.2 = -1 - c.ed d.1 d.2) ∧
  (∀ v s, (v, s) ∉ M → ed v s = c.ed v s)

/-- A set of darts closed under the face-successor map. -/
def FClosed (c : VCell) (M : Set (ℤ × ℤ)) : Prop :=
  ∀ d ∈ M, fnext c d ∈ M

/-- The first `n` iterates of a dart under the face-successor map. -/
def orbitTo (c : VCell) (d : ℤ × ℤ) (n : ℕ) : Set (ℤ × ℤ) :=
  {e | ∃ u, u < n ∧ (fnext c)^[u] d = e}

/-- The ghost triple sequence a face walk emits, starting at iterate `t` of
the walk's base dart and running for `n` body iterations. -/
def walkTris (c : VCell) (d : ℤ × ℤ) (t n : ℕ) : List (ℤ × ℤ × ℤ) :=
  (List.range n).map fun u =>
    (d.1, ((fnext c)^[t + u] d).1, tgt c ((fnext c)^[t + u] d))

/-- The ghost mark sequence a face walk records, starting at iterate `t`. -/
def walkMarks (c : VCell) (d : ℤ × ℤ) (t n : ℕ) : List (ℤ × ℤ) :=
  (List.range n).map fun u => (fnext c)^[t + u] d

/-- The ghost-trace invariant for emitted triples: every triple's middle and
last components are the source and target of some marked valid dart, and no
two triples share that source/target pair. -/
def TrisInv (c : VCell) (tris : List (ℤ × ℤ × ℤ)) (M : Set (ℤ × ℤ)) : Prop :=
  (∀ t ∈ tris, ∃ d, vD c d ∧ d ∈ M ∧ d.1 = t.2.1 ∧ tgt c d = t.2.2) ∧
  (tris.map fun t => (t.2.1, t.2.2)).Nodup

/-- Invariant carried through the outer extraction loops: the current table
is the original one with exactly the darts of `M` negated, `M` is a union of
complete faces of valid darts, the ghost mark trace lists exactly `M`
without repetition, the emitted triples satisfy `TrisInv`, and the polygon
strings are the renderings of the emitted triples in order. -/
def LoopInv (c : VCell) (st : XState) (M : Set (ℤ × ℤ)) : Prop :=
  EdMatch c st.ed M ∧ (∀ d ∈ M, vD c d) ∧ FClosed c M ∧
  st.marks.Nodup ∧ (∀ d, d ∈ st.marks ↔ d ∈ M) ∧
  TrisInv c st.tris M ∧ st.polys = st.tris.map (renderTri c)

/-- Edge table of a combinatorial tetrahedron (4 vertices of degree 3,
faces `(0,1,2)`, `(0,2,3)`, `(0,3,1)`, `(1,3,2)`), in the voro++ layout:
row `v` holds the three neighbours in cyclic order, then the three
reciprocal slots.  Used as a concrete well-formed cell. -/
def tetraEd : Ed := fun v s =>
  if v = 0 then
    if s = 0 then 1 else if s = 1 then 2 else if s = 2 then 3
    else if s = 3 then 0 else if s = 4 then 0 else if s = 5 then 0 else 0
  else if v = 1 then
    if s = 0 then 0 else if s = 1 then 3 else if s = 2 then 2
    else if s = 3 then 0 else if s = 4 then 2 else if s = 5 then 1 else 0
  else if v = 2 then
    if s = 0 then 0 else if s = 1 then 1 else if s = 2 then 3
    else if s = 3 then 1 else if s = 4 then 2 else if s = 5 then 1 else 0
  else if v = 3 then
    if s = 0 then 0 else if s = 1 then 2 else if s = 2 then 1
    else if s = 3 then 2 else if s = 4 then 2 else if s = 5 then 1 else 0
  else 0

/-- A concrete well-formed cell: the combinatorial tetrahedron with four
labelled vertex strings. -/
def tetraCell : VCell where
  p := 4
  nu := fun _ => 3
  ed := tetraEd
  pts := fun v => if v = 0 then "a" else if v = 1 then "b"
    else if v = 2 then "c" else "d"

end Voro3d

namespace Voro3d

/-- C5: the source's `dot` helper is not the mathematical dot product: at
`a = b = (0,1,0)` the code returns `0*0 + (1+1) + (0+0) = 2` while the dot
product the claim states (and the comment above the function promises) is
`1`. -/
theorem dot_code_bug :
    dot ⟨0, 1, 0⟩ ⟨0, 1, 0⟩ = 2 ∧ dotSpec ⟨0, 1, 0⟩ ⟨0, 1, 0⟩ = 1 ∧
    dot ⟨0, 1, 0⟩ ⟨0, 1, 0⟩ ≠ dotSpec ⟨0, 1, 0⟩ ⟨0, 1, 0⟩ := by
  refine ⟨by norm_num [dot], by norm_num [dotSpec], by norm_num [dot, dotSpec]⟩

/-- C4: `voronoi` aborts with a validation error — producing no output
sequence at all — exactly when the coordinate vectors have unequal lengths,
fewer than 2 points are supplied, or `containerRatio < 1`. -/
theorem voronoi_invalid_input_iff (x y z : List ℚ) (r : ℚ)
    (compute : ℕ → Option VCell) :
    (∃ msg, voronoi x y z r compute = Except.error msg) ↔
      (x.length ≠ y.length ∨ x.length ≠ z.length ∨ x.length < 2 ∨ r < 1) := by
  simp only [voronoi]
  split_ifs with h1 h2 h3
  · exact iff_of_true ⟨_, rfl⟩ (by tauto)
  · exact iff_of_true ⟨_, rfl⟩ (Or.inr (Or.inr (Or.inl h2)))
  · exact iff_of_true ⟨_, rfl⟩ (Or.inr (Or.inr (Or.inr h3)))
  · refine iff_of_false ?_ ?_
    · rintro ⟨msg, hm⟩
      simp at hm
    · push_neg at h1 ⊢
      exact ⟨h1.1, h1.2, not_lt.mp h2, not_lt.mp h3⟩

/-- C6: per-axis container sizing: the effective axis length is
`max(extent, 2)`; ratio 1 gives a zero margin on the axis (the container
bound coincides with the bounding box) and ratio 2 gives a margin of half
the floored length. -/
theorem container_sizing (coords : List ℚ) :
    axisLength coords = max (vecMax coords - vecMin coords) 2 ∧
    conMargin (axisLength coords) 1 = 0 ∧
    conLo coords 1 = vecMin coords ∧ conHi coords 1 = vecMax coords ∧
    conMargin (axisLength coords) 2 = axisLength coords / 2 := by
  constructor
  · unfold axisLength setThreshold
    rcases lt_or_le (vecMax coords - vecMin coords) 2 with h | h
    · rw [if_pos h, max_eq_right h.le]
    · rw [if_neg (not_lt.mpr h), max_eq_left h]
  · refine ⟨by unfold conMargin; ring, ?_, ?_, by unfold conMargin; ring⟩
    · unfold conLo conMargin
      ring
    · unfold conHi conMargin
      ring

/-- C9: determinism: two runs on identical coordinate vectors, the same
ratio, and the same cell-computation behaviour produce identical output
sequences. -/
theorem voronoi_deterministic (x1 y1 z1 x2 y2 z2 : List ℚ) (r1 r2 : ℚ)
    (c1 c2 : ℕ → Option VCell) (hx : x1 = x2) (hy : y1 = y2) (hz : z1 = z2)
    (hr : r1 = r2) (hc : c1 = c2) :
    voronoi x1 y1 z1 r1 c1 = voronoi x2 y2 z2 r2 c2 := by
  subst hx hy hz hr hc
  rfl

/-- Witness for C9 at a concrete input. -/
theorem voronoi_deterministic_witness :
    voronoi [0, 1] [0, 0] [0, 0] 1 (fun _ => none) =
      voronoi [0, 1] [0, 0] [0, 0] 1 (fun _ => none) :=
  voronoi_deterministic _ _ _ _ _ _ _ _ _ _ rfl rfl rfl rfl rfl

theorem cellLoop_eq_map (compute : ℕ → Option VCell) (l : List ℕ) :
    cellLoop compute l = l.map (cellResult compute) := by
  induction l with
  | nil => rfl
  | cons p rest ih => simp [cellLoop, ih]

theorem voronoi_ok_of_valid (x y z : List ℚ) (r : ℚ)
    (compute : ℕ → Option VCell) (hy : y.length = x.length)
    (hz : z.length = x.length) (hn : 2 ≤ x.length) (hr : 1 ≤ r) :
    voronoi x y z r compute =
      Except.ok ((List.range x.length).map (cellResult compute)) := by
  simp only [voronoi]
  rw [if_neg (by simp [hy, hz]), if_neg (by omega), if_neg (not_lt.mpr hr),
    cellLoop_eq_map]

/-- C1: on valid input (equal lengths, at least 2 points, ratio at least 1)
`voronoi` returns exactly `n` entries and the entry at position `p` is the
result for input point `p`: output order matches input order. -/
theorem voronoi_output_aligned (x y z : List ℚ) (r : ℚ)
    (compute : ℕ → Option VCell) (hy : y.length = x.length)
    (hz : z.length = x.length) (hn : 2 ≤ x.length) (hr : 1 ≤ r) :
    ∃ out, voronoi x y z r compute = Except.ok out ∧
      out.length = x.length ∧
      ∀ p, p < x.length → out[p]? = some (cellResult compute p) := by
  refine ⟨(List.range x.length).map (cellResult compute),
    voronoi_ok_of_valid x y z r compute hy hz hn hr, by simp, ?_⟩
  intro p hp
  simp [List.getElem?_map, List.getElem?_range hp]

/-- Witness for C1 at a concrete valid input. -/
theorem voronoi_output_aligned_witness :
    ∃ out, voronoi [0, 1] [0, 0] [0, 0] 1 (fun _ => none) = Except.ok out ∧
      out.length = 2 ∧
      ∀ p, p < 2 → out[p]? = some (cellResult (fun _ => none) p) :=
  voronoi_output_aligned [0, 1] [0, 0] [0, 0] 1 (fun _ => none) rfl rfl
    (by norm_num) le_rfl

/-- C2: on valid input, a decomposition failure at point `p` yields the
missing marker `none` at position `p`, and every other point's entry is
still its own result at its own position: no abort, no shifting. -/
theorem voronoi_failure_isolated (x y z : List ℚ) (r : ℚ)
    (compute : ℕ → Option VCell) (hy : y.length = x.length)
    (hz : z.length = x.length) (hn : 2 ≤ x.length) (hr : 1 ≤ r) (p : ℕ)
    (hp : p < x.length) (hfail : compute p = none) :
    ∃ out, voronoi x y z r compute = Except.ok out ∧
      out.length = x.length ∧ out[p]? = some none ∧
      ∀ q, q < x.length → q ≠ p → out[q]? = some (cellResult compute q) := by
  refine ⟨(List.range x.length).map (cellResult compute),
    voronoi_ok_of_valid x y z r compute hy hz hn hr, by simp, ?_, ?_⟩
  · have : cellResult compute p = none := by simp [cellResult, hfail]
    simp [List.getElem?_map, List.getElem?_range hp, this]
  · intro q hq _
    simp [List.getElem?_map, List.getElem?_range hq]

/-- Witness for C2 at a concrete valid input whose first point fails. -/
theorem voronoi_failure_isolated_witness :
    ∃ out, voronoi [0, 1] [0, 0] [0, 0] 1 (fun _ => none) = Except.ok out ∧
      out.length = 2 ∧ out[0]? = some none ∧
      ∀ q, q < 2 → q ≠ 0 → out[q]? = some (cellResult (fun _ => none) q) :=
  voronoi_failure_isolated [0, 1] [0, 0] [0, 0] 1 (fun _ => none) rfl rfl
    (by norm_num) le_rfl 0 (by norm_num) rfl

theorem axisLength_ge_two (coords : List ℚ) : 2 ≤ axisLength coords := by
  unfold axisLength setThreshold
  split_ifs with h
  · exact le_refl 2
  · exact not_lt.mp h

theorem cellsFactor_pos (n : ℕ) (xL yL zL : ℚ) (hn : 0 < n) (hx : 0 < xL)
    (hy : 0 < yL) (hz : 0 < zL) : 0 < cellsFactor n xL yL zL := by
  unfold cellsFactor
  apply Real.rpow_pos_of_pos
  apply div_pos
  · exact_mod_cast hn
  · have hx' : (0 : ℝ) < (xL : ℝ) := by exact_mod_cast hx
    have hy' : (0 : ℝ) < (yL : ℝ) := by exact_mod_cast hy
    have hz' : (0 : ℝ) < (zL : ℝ) := by exact_mod_cast hz
    have h56 : (0 : ℝ) < 5.6 := by norm_num
    exact mul_pos (mul_pos (mul_pos h56 hx') hy') hz'

theorem gridDim_ge_one (len : ℚ) (cells : ℝ) (hl : 0 < len) (hc : 0 < cells) :
    1 ≤ gridDim len cells := by
  unfold gridDim cppInt
  have hl' : (0 : ℝ) < (len : ℝ) := by exact_mod_cast hl
  have h1 : (0 : ℝ) < (len : ℝ) * cells := mul_pos hl' hc
  rw [if_pos (by linarith), Int.le_floor]
  push_cast
  linarith

/-- C8: for any input with at least 2 points, the three grid subdivision
counts derived during container sizing are integers at least 1. -/
theorem grid_dims_ge_one (x y z : List ℚ) (hn : 2 ≤ x.length) :
    1 ≤ gridNx x y z ∧ 1 ≤ gridNy x y z ∧ 1 ≤ gridNz x y z := by
  have hx := axisLength_ge_two x
  have hy := axisLength_ge_two y
  have hz := axisLength_ge_two z
  have hc : 0 < cellsFactor x.length (axisLength x) (axisLength y)
      (axisLength z) :=
    cellsFactor_pos _ _ _ _ (by omega) (by linarith) (by linarith)
      (by linarith)
  exact ⟨gridDim_ge_one _ _ (by linarith) hc,
    gridDim_ge_one _ _ (by linarith) hc,
    gridDim_ge_one _ _ (by linarith) hc⟩

/-- Witness for C8 at a concrete input. -/
theorem grid_dims_ge_one_witness :
    1 ≤ gridNx [0, 1] [0, 0] [0, 0] ∧ 1 ≤ gridNy [0, 1] [0, 0] [0, 0] ∧
      1 ≤ gridNz [0, 1] [0, 0] [0, 0] :=
  grid_dims_ge_one [0, 1] [0, 0] [0, 0] (by norm_num)

theorem faceWalk_rings (c : VCell) :
    ∀ fuel st ii kk ll mm st', faceWalk c fuel st ii kk ll mm = some st' →
      (∀ s ∈ st.polys, RingClosed s) → ∀ s ∈ st'.polys, RingClosed s := by
  intro fuel
  induction fuel with
  | zero =>
    intro st ii kk ll mm st' h
    simp [faceWalk] at h
  | succ n ih =>
    intro st ii kk ll mm st' h hst
    rw [faceWalk] at h
    by_cases hmm : mm = ii
    · rw [if_pos hmm] at h
      cases h
      exact hst
    · rw [if_neg hmm] at h
      refine ih _ _ _ _ _ _ h ?_
      intro s hs
      rcases List.mem_append.mp hs with h1 | h2
      · exact hst s h1
      · rw [List.mem_singleton] at h2
        subst h2
        exact ⟨c.pts ii, c.pts kk, c.pts mm, rfl⟩

theorem processSlot_rings (c : VCell) (fuel : ℕ) (st : XState) (ii jj : ℤ)
    (st' : XState) (h : processSlot c fuel st ii jj = some st')
    (hst : ∀ s ∈ st.polys, RingClosed s) :
    ∀ s ∈ st'.polys, RingClosed s := by
  simp only [processSlot] at h
  split_ifs at h with hkk
  · exact faceWalk_rings c fuel _ ii _ _ _ st' h hst
  · cases h
    exact hst

theorem slotLoop_rings (c : VCell) (fuel : ℕ) (ii : ℤ) :
    ∀ l st st', slotLoop c fuel ii l st = some st' →
      (∀ s ∈ st.polys, RingClosed s) → ∀ s ∈ st'.polys, RingClosed s := by
  intro l
  induction l with
  | nil =>
    intro st st' h hst
    cases h
    exact hst
  | cons jj rest ih =>
    intro st st' h hst
    rw [slotLoop] at h
    cases hps : processSlot c fuel st ii jj with
    | none =>
      rw [hps] at h
      cases h
    | some st2 =>
      rw [hps] at h
      exact ih st2 st' h (processSlot_rings c fuel st ii jj st2 hps hst)

theorem vertLoop_rings (c : VCell) (fuel : ℕ) :
    ∀ l st st', vertLoop c fuel l st = some st' →
      (∀ s ∈ st.polys, RingClosed s) → ∀ s ∈ st'.polys, RingClosed s := by
  intro l
  induction l with
  | nil =>
    intro st st' h hst
    cases h
    exact hst
  | cons ii rest ih =>
    intro st st' h hst
    rw [vertLoop] at h
    cases hsl : slotLoop c fuel ii (intRange 0 (c.nu ii)) st with
    | none =>
      rw [hsl] at h
      cases h
    | some st2 =>
      rw [hsl] at h
      exact ih st2 st' h (slotLoop_rings c fuel ii _ st st2 hsl hst)

/-- C7: every triangle ring emitted inside a cell's polyhedral-surface
string is explicitly closed: its last coordinate triple is character for
character the same string as its first coordinate triple. -/
theorem rings_closed (c : VCell) (polys : List String)
    (h : extractPolys c = some polys) : ∀ poly ∈ polys, RingClosed poly := by
  unfold extractPolys at h
  cases hef : extractFaces c with
  | none =>
    rw [hef] at h
    cases h
  | some st =>
    rw [hef] at h
    unfold extractFaces at hef
    injection h with h2
    subst h2
    exact vertLoop_rings c (dartCount c + 1) (intRange 1 c.p) _ st hef
      (by intro s hs; cases hs)

theorem mem_dartFinset (c : VCell) (d : ℤ × ℤ) :
    d ∈ dartFinset c ↔ vD c d := by
  obtain ⟨v, s⟩ := d
  unfold dartFinset vD
  simp only [Finset.mem_biUnion, Finset.mem_image, Finset.mem_Icc,
    Prod.mk.injEq]
  constructor
  · rintro ⟨v2, ⟨h0, h1⟩, s2, ⟨h2, h3⟩, rfl, rfl⟩
    exact ⟨h0, by omega, h2, by omega⟩
  · rintro ⟨h0, h1, h2, h3⟩
    exact ⟨v, ⟨h0, by omega⟩, s, ⟨h2, by omega⟩, rfl, rfl⟩

theorem mem_intRange (a b v : ℤ) : v ∈ intRange a b ↔ a ≤ v ∧ v < b := by
  unfold intRange
  constructor
  · intro hv
    obtain ⟨t, ht, hv2⟩ := List.mem_map.mp hv
    have ht2 : t < (b - a).toNat := List.mem_range.mp ht
    have hv3 : a + (t : ℤ) = v := hv2
    omega
  · intro hv
    refine List.mem_map.mpr
      ⟨(v - a).toNat, List.mem_range.mpr (by omega), ?_⟩
    show a + ((v - a).toNat : ℤ) = v
    omega

theorem wf_tgt (c : VCell) (hwf : WellFormed c) (d : ℤ × ℤ) (hd : vD c d) :
    0 ≤ tgt c d ∧ tgt c d < c.p :=
  hwf.1 d ((mem_dartFinset c d).mpr hd)

theorem wf_noloop (c : VCell) (hwf : WellFormed c) (d : ℤ × ℤ)
    (hd : vD c d) : tgt c d ≠ d.1 :=
  hwf.2.1 d ((mem_dartFinset c d).mpr hd)

theorem wf_back (c : VCell) (hwf : WellFormed c) (d : ℤ × ℤ) (hd : vD c d) :
    0 ≤ backSlot c d ∧ backSlot c d < c.nu (tgt c d) :=
  hwf.2.2.1 d ((mem_dartFinset c d).mpr hd)

theorem wf_recipA (c : VCell) (hwf : WellFormed c) (d : ℤ × ℤ)
    (hd : vD c d) : c.ed (tgt c d) (backSlot c d) = d.1 :=
  hwf.2.2.2.1 d ((mem_dartFinset c d).mpr hd)

theorem wf_recipB (c : VCell) (hwf : WellFormed c) (d : ℤ × ℤ)
    (hd : vD c d) : c.ed (tgt c d) (c.nu (tgt c d) + backSlot c d) = d.2 :=
  hwf.2.2.2.2.1 d ((mem_dartFinset c d).mpr hd)

theorem wf_noparallel (c : VCell) (hwf : WellFormed c) (d e : ℤ × ℤ)
    (hd : vD c d) (he : vD c e) (h1 : d.1 = e.1) (h2 : tgt c d = tgt c e) :
    d = e :=
  hwf.2.2.2.2.2.1 d ((mem_dartFinset c d).mpr hd) e
    ((mem_dartFinset c e).mpr he) h1 h2

theorem wf_simple (c : VCell) (hwf : WellFormed c) (d : ℤ × ℤ)
    (hd : vD c d) (a b : ℕ) (ha : a ≤ dartCount c) (hb : b ≤ dartCount c)
    (h : ((fnext c)^[a] d).1 = ((fnext c)^[b] d).1) :
    (fnext c)^[a] d = (fnext c)^[b] d :=
  hwf.2.2.2.2.2.2 d ((mem_dartFinset c d).mpr hd) a
    (Finset.mem_range.mpr (by omega)) b (Finset.mem_range.mpr (by omega)) h

theorem fnext_fst (c : VCell) (d : ℤ × ℤ) : (fnext c d).1 = tgt c d := rfl

theorem vD_fnext (c : VCell) (hwf : WellFormed c) (d : ℤ × ℤ)
    (hd : vD c d) : vD c (fnext c d) := by
  obtain ⟨ht1, ht2⟩ := wf_tgt c hwf d hd
  obtain ⟨hb1, hb2⟩ := wf_back c hwf d hd
  have hcy : 0 ≤ cycle_up c (backSlot c d) (tgt c d) ∧
      cycle_up c (backSlot c d) (tgt c d) < c.nu (tgt c d) := by
    unfold cycle_up
    split_ifs with h
    · omega
    · omega
  exact ⟨ht1, ht2, hcy.1, hcy.2⟩

theorem vD_iterate (c : VCell) (hwf : WellFormed c) (d : ℤ × ℤ)
    (hd : vD c d) : ∀ t, vD c ((fnext c)^[t] d) := by
  intro t
  induction t with
  | zero => exact hd
  | succ n ih =>
    rw [Function.iterate_succ_apply']
    exact vD_fnext c hwf _ ih

theorem fnext_injOn (c : VCell) (hwf : WellFormed c) (d e : ℤ × ℤ)
    (hd : vD c d) (he : vD c e) (h : fnext c d = fnext c e) : d = e := by
  have h1 : tgt c d = tgt c e := congrArg Prod.fst h
  have h2 : cycle_up c (backSlot c d) (tgt c d) =
      cycle_up c (backSlot c e) (tgt c e) := congrArg Prod.snd h
  rw [← h1] at h2
  have hbd := wf_back c hwf d hd
  have hbe := wf_back c hwf e he
  rw [← h1] at hbe
  have hback : backSlot c d = backSlot c e := by
    unfold cycle_up at h2
    split_ifs at h2 with ha hb
    · rw [ha, hb]
    · omega
    · omega
    · omega
  have hfst : d.1 = e.1 := by
    rw [← wf_recipA c hwf d hd, ← wf_recipA c hwf e he, ← h1, ← hback]
  have hsnd : d.2 = e.2 := by
    rw [← wf_recipB c hwf d hd, ← wf_recipB c hwf e he, ← h1, ← hback]
  exact Prod.ext hfst hsnd

theorem iterate_injOn (c : VCell) (hwf : WellFormed c) (d e : ℤ × ℤ)
    (hd : vD c d) (he : vD c e) :
    ∀ a, (fnext c)^[a] d = (fnext c)^[a] e → d = e := by
  intro a
  induction a generalizing d e with
  | zero => intro h; exact h
  | succ n ih =>
    intro h
    rw [Function.iterate_succ_apply, Function.iterate_succ_apply] at h
    exact fnext_injOn c hwf d e hd he
      (ih (fnext c d) (fnext c e) (vD_fnext c hwf d hd)
        (vD_fnext c hwf e he) h)

theorem exists_period (c : VCell) (hwf : WellFormed c) (d : ℤ × ℤ)
    (hd : vD c d) :
    ∃ u, 1 ≤ u ∧ u ≤ dartCount c ∧ (fnext c)^[u] d = d := by
  have hmap : ∀ t ∈ Finset.range (dartCount c + 1),
      (fnext c)^[t] d ∈ dartFinset c := by
    intro t _
    exact (mem_dartFinset c _).mpr (vD_iterate c hwf d hd t)
  have hcard : (dartFinset c).card < (Finset.range (dartCount c + 1)).card := by
    simp [dartCount]
  obtain ⟨a, ha, b, hb, hne, heq⟩ :=
    Finset.exists_ne_map_eq_of_card_lt_of_maps_to hcard hmap
  rcases Nat.lt_or_ge a b with hab | hab
  · refine ⟨b - a, by omega, ?_, ?_⟩
    · simp only [Finset.mem_range] at hb
      omega
    · have hstep : (fnext c)^[a] ((fnext c)^[b - a] d) = (fnext c)^[a] d := by
        rw [← Function.iterate_add_apply, show a + (b - a) = b by omega]
        exact heq.symm
      exact iterate_injOn c hwf _ d (vD_iterate c hwf d hd _) hd a hstep
  · have hba : b < a := by omega
    refine ⟨a - b, by omega, ?_, ?_⟩
    · simp only [Finset.mem_range] at ha
      omega
    · have hstep : (fnext c)^[b] ((fnext c)^[a - b] d) = (fnext c)^[b] d := by
        rw [← Function.iterate_add_apply, show b + (a - b) = a by omega]
        exact heq
      exact iterate_injOn c hwf _ d (vD_iterate c hwf d hd _) hd b hstep

theorem exists_min_period (c : VCell) (hwf : WellFormed c) (d : ℤ × ℤ)
    (hd : vD c d) :
    ∃ L, 1 ≤ L ∧ L ≤ dartCount c ∧ (fnext c)^[L] d = d ∧
      ∀ a b, a < b → b < L → (fnext c)^[a] d ≠ (fnext c)^[b] d := by
  obtain ⟨u, hu1, hu2, hu3⟩ := exists_period c hwf d hd
  have hex : ∃ v, 1 ≤ v ∧ (fnext c)^[v] d = d := ⟨u, hu1, hu3⟩
  have hspec := Nat.find_spec hex
  refine ⟨Nat.find hex, hspec.1,
    le_trans (Nat.find_min' hex ⟨hu1, hu3⟩) hu2, hspec.2, ?_⟩
  intro a b hab hbL heq
  have hstep : (fnext c)^[a] ((fnext c)^[b - a] d) = (fnext c)^[a] d := by
    rw [← Function.iterate_add_apply, show a + (b - a) = b by omega]
    exact heq.symm
  have hper : (fnext c)^[b - a] d = d :=
    iterate_injOn c hwf _ d (vD_iterate c hwf d hd _) hd a hstep
  exact Nat.find_min hex (show b - a < Nat.find hex by omega) ⟨by omega, hper⟩

theorem edWrite_self (ed : Ed) (v s x : ℤ) : edWrite ed v s x v s = x := by
  unfold edWrite
  rw [if_pos ⟨rfl, rfl⟩]

theorem edWrite_ne (ed : Ed) (v s x v2 s2 : ℤ)
    (h : ¬(v2 = v ∧ s2 = s)) : edWrite ed v s x v2 s2 = ed v2 s2 := by
  unfold edWrite
  rw [if_neg h]

theorem EdMatch.mark (c : VCell) (ed : Ed) (M : Set (ℤ × ℤ))
    (h : EdMatch c ed M) (e : ℤ × ℤ) (he : e ∉ M) :
    EdMatch c (edWrite ed e.1 e.2 (-1 - ed e.1 e.2)) (M ∪ {e}) := by
  have hread : ed e.1 e.2 = c.ed e.1 e.2 := by
    apply h.2
    rw [Prod.mk.eta]
    exact he
  constructor
  · intro d hd
    rcases hd with hd | hd
    · have hne : ¬(d.1 = e.1 ∧ d.2 = e.2) := by
        rintro ⟨h1, h2⟩
        exact he (by rw [← Prod.ext h1 h2]; exact hd)
      rw [edWrite_ne _ _ _ _ _ _ hne]
      exact h.1 d hd
    · rw [Set.mem_singleton_iff] at hd
      subst hd
      rw [edWrite_self, hread]
  · intro v s hvs
    have hne : ¬(v = e.1 ∧ s = e.2) := by
      rintro ⟨h1, h2⟩
      apply hvs
      right
      rw [Set.mem_singleton_iff, ← Prod.mk.eta (p := e), ← h1, ← h2]
    rw [edWrite_ne _ _ _ _ _ _ hne]
    exact h.2 v s (fun hm => hvs (Or.inl hm))

theorem EdMatch.read_back (c : VCell) (ed : Ed) (M : Set (ℤ × ℤ))
    (h : EdMatch c ed M) (hMv : ∀ d ∈ M, vD c d) (v s : ℤ) (hs : 0 ≤ s) :
    ed v (c.nu v + s) = c.ed v (c.nu v + s) := by
  apply h.2
  intro hmem
  have hv := hMv _ hmem
  have h4 : c.nu v + s < c.nu v := hv.2.2.2
  omega

theorem FClosed.iterate (c : VCell) (M : Set (ℤ × ℤ)) (h : FClosed c M)
    (d : ℤ × ℤ) (hd : d ∈ M) : ∀ k, (fnext c)^[k] d ∈ M := by
  intro k
  induction k with
  | zero => exact hd
  | succ n ih =>
    rw [Function.iterate_succ_apply']
    exact h _ ih

theorem orbit_disjoint (c : VCell) (M : Set (ℤ × ℤ)) (hMc : FClosed c M)
    (d : ℤ × ℤ) (hdM : d ∉ M) (L : ℕ) (hLp : (fnext c)^[L] d = d) :
    ∀ u, u < L → (fnext c)^[u] d ∉ M := by
  intro u hu hmem
  apply hdM
  have hmem2 : (fnext c)^[L - u] ((fnext c)^[u] d) ∈ M :=
    FClosed.iterate c M hMc _ hmem _
  rw [← Function.iterate_add_apply, show (L - u) + u = L by omega] at hmem2
  rwa [hLp] at hmem2

theorem orbitTo_succ (c : VCell) (d : ℤ × ℤ) (n : ℕ) :
    orbitTo c d (n + 1) = orbitTo c d n ∪ {(fnext c)^[n] d} := by
  ext e
  simp only [orbitTo, Set.mem_setOf_eq, Set.mem_union, Set.mem_singleton_iff]
  constructor
  · rintro ⟨u, hu, rfl⟩
    rcases Nat.lt_or_ge u n with h | h
    · exact Or.inl ⟨u, h, rfl⟩
    · have heq : u = n := by omega
      subst heq
      exact Or.inr rfl
  · rintro (⟨u, hu, rfl⟩ | rfl)
    · exact ⟨u, by omega, rfl⟩
    · exact ⟨n, by omega, rfl⟩

theorem orbitTo_one (c : VCell) (d : ℤ × ℤ) : orbitTo c d 1 = {d} := by
  ext e
  simp only [orbitTo, Set.mem_setOf_eq, Set.mem_singleton_iff]
  constructor
  · rintro ⟨u, hu, rfl⟩
    have heq : u = 0 := by omega
    subst heq
    rfl
  · rintro rfl
    exact ⟨0, by omega, rfl⟩

theorem mem_orbitTo (c : VCell) (d : ℤ × ℤ) (n : ℕ) (e : ℤ × ℤ) :
    e ∈ orbitTo c d n ↔ ∃ u, u < n ∧ (fnext c)^[u] d = e :=
  Iff.rfl

theorem walkTris_zero (c : VCell) (d : ℤ × ℤ) (t : ℕ) :
    walkTris c d t 0 = [] := rfl

theorem walkMarks_zero (c : VCell) (d : ℤ × ℤ) (t : ℕ) :
    walkMarks c d t 0 = [] := rfl

theorem walkTris_succ (c : VCell) (d : ℤ × ℤ) (t k : ℕ) :
    walkTris c d t (k + 1) =
      (d.1, ((fnext c)^[t] d).1, tgt c ((fnext c)^[t] d)) ::
        walkTris c d (t + 1) k := by
  unfold walkTris
  rw [List.range_succ_eq_map, List.map_cons, List.map_map]
  congr 1
  apply List.map_congr_left
  intro u _
  simp only [Function.comp_apply]
  rw [show t + (u + 1) = t + 1 + u by omega]

theorem walkMarks_succ (c : VCell) (d : ℤ × ℤ) (t k : ℕ) :
    walkMarks c d t (k + 1) =
      (fnext c)^[t] d :: walkMarks c d (t + 1) k := by
  unfold walkMarks
  rw [List.range_succ_eq_map, List.map_cons, List.map_map]
  congr 1
  apply List.map_congr_left
  intro u _
  simp only [Function.comp_apply]
  rw [show t + (u + 1) = t + 1 + u by omega]

theorem mem_walkMarks (c : VCell) (d : ℤ × ℤ) (t n : ℕ) (e : ℤ × ℤ) :
    e ∈ walkMarks c d t n ↔ ∃ u, u < n ∧ (fnext c)^[t + u] d = e := by
  unfold walkMarks
  constructor
  · intro he
    obtain ⟨u, hu, hue⟩ := List.mem_map.mp he
    exact ⟨u, List.mem_range.mp hu, hue⟩
  · rintro ⟨u, hu, hue⟩
    exact List.mem_map.mpr ⟨u, List.mem_range.mpr hu, hue⟩

theorem mem_walkTris (c : VCell) (d : ℤ × ℤ) (t n : ℕ) (e : ℤ × ℤ × ℤ) :
    e ∈ walkTris c d t n ↔ ∃ u, u < n ∧
      (d.1, ((fnext c)^[t + u] d).1, tgt c ((fnext c)^[t + u] d)) = e := by
  unfold walkTris
  constructor
  · intro he
    obtain ⟨u, hu, hue⟩ := List.mem_map.mp he
    exact ⟨u, List.mem_range.mp hu, hue⟩
  · rintro ⟨u, hu, hue⟩
    exact List.mem_map.mpr ⟨u, List.mem_range.mpr hu, hue⟩

theorem faceWalk_stop (c : VCell) (f : ℕ) (st : XState) (ii kk ll mm : ℤ)
    (h : mm = ii) : faceWalk c (f + 1) st ii kk ll mm = some st := by
  rw [faceWalk, if_pos h]

theorem faceWalk_go (c : VCell) (f : ℕ) (ed : Ed) (polys : List String)
    (tris : List (ℤ × ℤ × ℤ)) (marks : List (ℤ × ℤ)) (ii kk ll mm : ℤ)
    (h : ¬mm = ii) :
    faceWalk c (f + 1) ⟨ed, polys, tris, marks⟩ ii kk ll mm =
      faceWalk c f
        ⟨edWrite ed mm (cycle_up c (ed kk (c.nu kk + ll)) mm)
            (-1 - ed mm (cycle_up c (ed kk (c.nu kk + ll)) mm)),
          polys ++ ["((" ++ c.pts ii ++ ", " ++ c.pts kk ++ ", " ++
            c.pts mm ++ ", " ++ c.pts ii ++ "))"],
          tris ++ [(ii, kk, mm)],
          marks ++ [(mm, cycle_up c (ed kk (c.nu kk + ll)) mm)]⟩
        ii mm (cycle_up c (ed kk (c.nu kk + ll)) mm)
        (ed mm (cycle_up c (ed kk (c.nu kk + ll)) mm)) := by
  rw [faceWalk, if_neg h]

theorem processSlot_skip (c : VCell) (fuel : ℕ) (ed : Ed)
    (polys : List String) (tris : List (ℤ × ℤ × ℤ)) (marks : List (ℤ × ℤ))
    (ii jj : ℤ) (h : ¬0 ≤ ed ii jj) :
    processSlot c fuel ⟨ed, polys, tris, marks⟩ ii jj =
      some ⟨ed, polys, tris, marks⟩ := by
  simp only [processSlot]
  rw [if_neg h]

theorem processSlot_go (c : VCell) (fuel : ℕ) (ed : Ed)
    (polys : List String) (tris : List (ℤ × ℤ × ℤ)) (marks : List (ℤ × ℤ))
    (ii jj : ℤ) (h : 0 ≤ ed ii jj) :
    processSlot c fuel ⟨ed, polys, tris, marks⟩ ii jj =
      faceWalk c fuel
        ⟨edWrite (edWrite ed ii jj (-1 - ed ii jj)) (ed ii jj)
            (cycle_up c (edWrite ed ii jj (-1 - ed ii jj) ii (c.nu ii + jj))
              (ed ii jj))
            (-1 - edWrite ed ii jj (-1 - ed ii jj) (ed ii jj)
              (cycle_up c (edWrite ed ii jj (-1 - ed ii jj) ii
                (c.nu ii + jj)) (ed ii jj))),
          polys, tris,
          marks ++ [(ii, jj), (ed ii jj,
            cycle_up c (edWrite ed ii jj (-1 - ed ii jj) ii (c.nu ii + jj))
              (ed ii jj))]⟩
        ii (ed ii jj)
        (cycle_up c (edWrite ed ii jj (-1 - ed ii jj) ii (c.nu ii + jj))
          (ed ii jj))
        (edWrite ed ii jj (-1 - ed ii jj) (ed ii jj)
          (cycle_up c (edWrite ed ii jj (-1 - ed ii jj) ii (c.nu ii + jj))
            (ed ii jj))) := by
  simp only [processSlot]
  rw [if_pos h]

theorem walkMarks_add (c : VCell) (d : ℤ × ℤ) (t m n : ℕ) :
    walkMarks c d t (m + n) =
      walkMarks c d t m ++ walkMarks c d (t + m) n := by
  induction m generalizing t with
  | zero => simp [walkMarks_zero]
  | succ m ih =>
    rw [show m + 1 + n = (m + n) + 1 by omega, walkMarks_succ, walkMarks_succ,
      ih (t + 1)]
    simp [show t + 1 + m = t + (m + 1) by omega]

theorem faceWalk_spec (c : VCell) (hwf : WellFormed c) (d0 : ℤ × ℤ)
    (hd0 : vD c d0) (M : Set (ℤ × ℤ)) (hMv : ∀ d ∈ M, vD c d)
    (L : ℕ) (hLc : L ≤ dartCount c) (hLp : (fnext c)^[L] d0 = d0)
    (hdst : ∀ a b, a < b → b < L → (fnext c)^[a] d0 ≠ (fnext c)^[b] d0)
    (hdis : ∀ u, u < L → (fnext c)^[u] d0 ∉ M) :
    ∀ k t, 1 ≤ t → t + k + 1 = L → ∀ fuel, k < fuel →
      ∀ ed polys tris marks,
      EdMatch c ed (M ∪ orbitTo c d0 (t + 1)) →
      ∃ ed2, EdMatch c ed2 (M ∪ orbitTo c d0 L) ∧
        faceWalk c fuel ⟨ed, polys, tris, marks⟩ d0.1 ((fnext c)^[t] d0).1
            ((fnext c)^[t] d0).2 (tgt c ((fnext c)^[t] d0)) =
          some ⟨ed2, polys ++ (walkTris c d0 t k).map (renderTri c),
            tris ++ walkTris c d0 t k, marks ++ walkMarks c d0 (t + 1) k⟩ := by
  intro k
  induction k with
  | zero =>
    intro t ht1 htL fuel hfuel ed polys tris marks hEd
    cases fuel with
    | zero => omega
    | succ f =>
      have hit : (fnext c)^[t + 1] d0 = d0 := by
        rw [show t + 1 = L by omega, hLp]
      have hmm : tgt c ((fnext c)^[t] d0) = d0.1 := by
        have h1 : ((fnext c)^[t + 1] d0).1 = d0.1 := by rw [hit]
        rw [Function.iterate_succ_apply'] at h1
        exact h1
      refine ⟨ed, by rw [show t + 1 = L by omega] at hEd; exact hEd, ?_⟩
      rw [faceWalk_stop c f _ _ _ _ _ hmm, walkTris_zero, walkMarks_zero]
      simp
  | succ k ih =>
    intro t ht1 htL fuel hfuel ed polys tris marks hEd
    cases fuel with
    | zero => omega
    | succ f =>
      have hvdt : vD c ((fnext c)^[t] d0) := vD_iterate c hwf d0 hd0 t
      have hfst : tgt c ((fnext c)^[t] d0) = ((fnext c)^[t + 1] d0).1 := by
        rw [Function.iterate_succ_apply']
        rfl
      have hmm_ne : ¬tgt c ((fnext c)^[t] d0) = d0.1 := by
        intro heq
        have h1 : ((fnext c)^[t + 1] d0).1 = ((fnext c)^[0] d0).1 := by
          rw [← hfst, heq]
          rfl
        have h2 : (fnext c)^[t + 1] d0 = (fnext c)^[0] d0 :=
          wf_simple c hwf d0 hd0 (t + 1) 0 (by omega) (by omega) h1
        exact hdst 0 (t + 1) (by omega) (by omega) h2.symm
      have hMv2 : ∀ d ∈ M ∪ orbitTo c d0 (t + 1), vD c d := by
        intro d hd
        rcases hd with hm | ho
        · exact hMv d hm
        · obtain ⟨u, hu, hue⟩ := ho
          rw [← hue]
          exact vD_iterate c hwf d0 hd0 u
      have hbackread : ed ((fnext c)^[t] d0).1
          (c.nu ((fnext c)^[t] d0).1 + ((fnext c)^[t] d0).2) =
          c.ed ((fnext c)^[t] d0).1
            (c.nu ((fnext c)^[t] d0).1 + ((fnext c)^[t] d0).2) :=
        EdMatch.read_back c ed _ hEd hMv2 _ _ hvdt.2.2.1
      have hnn : cycle_up c (ed ((fnext c)^[t] d0).1
            (c.nu ((fnext c)^[t] d0).1 + ((fnext c)^[t] d0).2))
            (tgt c ((fnext c)^[t] d0)) = ((fnext c)^[t + 1] d0).2 := by
        rw [hbackread, Function.iterate_succ_apply']
        rfl
      have hnext_unmarked :
          (fnext c)^[t + 1] d0 ∉ M ∪ orbitTo c d0 (t + 1) := by
        rintro (hm | ho)
        · exact hdis (t + 1) (by omega) hm
        · obtain ⟨u, hu, hue⟩ := ho
          exact hdst u (t + 1) (by omega) (by omega) hue
      have hread_next : ed ((fnext c)^[t + 1] d0).1
          ((fnext c)^[t + 1] d0).2 = tgt c ((fnext c)^[t + 1] d0) := by
        have h := hEd.2 ((fnext c)^[t + 1] d0).1 ((fnext c)^[t + 1] d0).2
          (by rw [Prod.mk.eta]; exact hnext_unmarked)
        exact h
      have hEd2 : EdMatch c
          (edWrite ed ((fnext c)^[t + 1] d0).1 ((fnext c)^[t + 1] d0).2
            (-1 - tgt c ((fnext c)^[t + 1] d0)))
          (M ∪ orbitTo c d0 (t + 1 + 1)) := by
        have hmk := EdMatch.mark c ed _ hEd _ hnext_unmarked
        rw [hread_next] at hmk
        rw [Set.union_assoc] at hmk
        rw [← orbitTo_succ c d0 (t + 1)] at hmk
        exact hmk
      rw [faceWalk_go c f ed polys tris marks d0.1 ((fnext c)^[t] d0).1
        ((fnext c)^[t] d0).2 (tgt c ((fnext c)^[t] d0)) hmm_ne]
      rw [walkTris_succ c d0 t k, walkMarks_succ c d0 (t + 1) k]
      rw [hnn, hfst, hread_next]
      rw [Prod.mk.eta]
      obtain ⟨ed2, hed2m, hrun⟩ := ih (t + 1) (by omega) (by omega) f
        (by omega)
        (edWrite ed ((fnext c)^[t + 1] d0).1 ((fnext c)^[t + 1] d0).2
          (-1 - tgt c ((fnext c)^[t + 1] d0)))
        (polys ++ ["((" ++ c.pts d0.1 ++ ", " ++
          c.pts ((fnext c)^[t] d0).1 ++ ", " ++
          c.pts ((fnext c)^[t + 1] d0).1 ++ ", " ++ c.pts d0.1 ++ "))"])
        (tris ++ [(d0.1, ((fnext c)^[t] d0).1, ((fnext c)^[t + 1] d0).1)])
        (marks ++ [(fnext c)^[t + 1] d0]) hEd2
      refine ⟨ed2, hed2m, ?_⟩
      exact hrun.trans (by simp [renderTri])

theorem processSlot_spec (c : VCell) (hwf : WellFormed c) (d0 : ℤ × ℤ)
    (hd0 : vD c d0) (M : Set (ℤ × ℤ)) (hMv : ∀ d ∈ M, vD c d)
    (L : ℕ) (hL1 : 1 ≤ L) (hLc : L ≤ dartCount c)
    (hLp : (fnext c)^[L] d0 = d0)
    (hdst : ∀ a b, a < b → b < L → (fnext c)^[a] d0 ≠ (fnext c)^[b] d0)
    (hdis : ∀ u, u < L → (fnext c)^[u] d0 ∉ M)
    (fuel : ℕ) (hfuel : dartCount c < fuel) (ed : Ed) (polys : List String)
    (tris : List (ℤ × ℤ × ℤ)) (marks : List (ℤ × ℤ))
    (hEd : EdMatch c ed M) :
    ∃ ed2, EdMatch c ed2 (M ∪ orbitTo c d0 L) ∧
      processSlot c fuel ⟨ed, polys, tris, marks⟩ d0.1 d0.2 =
        some ⟨ed2, polys ++ (walkTris c d0 1 (L - 2)).map (renderTri c),
          tris ++ walkTris c d0 1 (L - 2),
          marks ++ walkMarks c d0 0 L⟩ := by
  have hL2 : 2 ≤ L := by
    rcases Nat.lt_or_ge L 2 with h | h
    · exfalso
      have hL1' : L = 1 := by omega
      subst hL1'
      rw [Function.iterate_one] at hLp
      exact wf_noloop c hwf d0 hd0 (congrArg Prod.fst hLp)
    · exact h
  have hd0M : d0 ∉ M := hdis 0 (by omega)
  have hkk : ed d0.1 d0.2 = tgt c d0 :=
    hEd.2 d0.1 d0.2 (by rw [Prod.mk.eta]; exact hd0M)
  have hkk0 : 0 ≤ ed d0.1 d0.2 := by
    rw [hkk]
    exact (wf_tgt c hwf d0 hd0).1
  rw [processSlot_go c fuel ed polys tris marks d0.1 d0.2 hkk0]
  have hw1 : edWrite ed d0.1 d0.2 (-1 - ed d0.1 d0.2) d0.1
      (c.nu d0.1 + d0.2) = ed d0.1 (c.nu d0.1 + d0.2) :=
    edWrite_ne _ _ _ _ _ _ (by
      rintro ⟨h1, h2⟩
      have h3 : 0 ≤ d0.2 := hd0.2.2.1
      have h4 : d0.2 < c.nu d0.1 := hd0.2.2.2
      omega)
  have hback : ed d0.1 (c.nu d0.1 + d0.2) = c.ed d0.1 (c.nu d0.1 + d0.2) :=
    EdMatch.read_back c ed M hEd hMv d0.1 d0.2 hd0.2.2.1
  rw [hw1, hback, hkk]
  have hcy2 : cycle_up c (c.ed d0.1 (c.nu d0.1 + d0.2)) (tgt c d0) =
      ((fnext c)^[1] d0).2 := rfl
  have htk : tgt c d0 = ((fnext c)^[1] d0).1 := rfl
  rw [hcy2, htk]
  have hmm1 : edWrite ed d0.1 d0.2 (-1 - ((fnext c)^[1] d0).1)
      ((fnext c)^[1] d0).1 ((fnext c)^[1] d0).2 =
      ed ((fnext c)^[1] d0).1 ((fnext c)^[1] d0).2 :=
    edWrite_ne _ _ _ _ _ _ (by
      rintro ⟨h1, h2⟩
      exact wf_noloop c hwf d0 hd0 h1)
  rw [hmm1]
  have he1M : (fnext c)^[1] d0 ∉ M := hdis 1 (by omega)
  have hmm2 : ed ((fnext c)^[1] d0).1 ((fnext c)^[1] d0).2 =
      tgt c ((fnext c)^[1] d0) :=
    hEd.2 _ _ (by rw [Prod.mk.eta]; exact he1M)
  rw [hmm2]
  simp only [Prod.mk.eta]
  have hm1 := EdMatch.mark c ed M hEd d0 hd0M
  rw [hkk, htk] at hm1
  rw [← orbitTo_one c d0] at hm1
  have he1orb : (fnext c)^[1] d0 ∉ M ∪ orbitTo c d0 1 := by
    rintro (hm | ho)
    · exact he1M hm
    · obtain ⟨u, hu, hue⟩ := ho
      have hu0 : u = 0 := by omega
      subst hu0
      exact hdst 0 1 (by omega) (by omega) hue
  have hm2 := EdMatch.mark c _ _ hm1 _ he1orb
  rw [hmm1, hmm2] at hm2
  rw [Set.union_assoc, ← orbitTo_succ c d0 1] at hm2
  obtain ⟨ed2, hed2, hrun⟩ := faceWalk_spec c hwf d0 hd0 M hMv L hLc hLp
    hdst hdis (L - 2) 1 le_rfl (by omega) fuel (by omega) _ polys tris
    (marks ++ [(d0.1, d0.2), (fnext c)^[1] d0]) hm2
  refine ⟨ed2, hed2, ?_⟩
  refine hrun.trans ?_
  have hsplit : walkMarks c d0 0 L =
      d0 :: (fnext c)^[1] d0 :: walkMarks c d0 2 (L - 2) := by
    have h2 : L = L - 2 + 1 + 1 := by omega
    calc walkMarks c d0 0 L = walkMarks c d0 0 (L - 2 + 1 + 1) := by
          rw [← h2]
      _ = d0 :: (fnext c)^[1] d0 :: walkMarks c d0 2 (L - 2) := by
          rw [walkMarks_succ, walkMarks_succ, Function.iterate_zero_apply]
  simp [hsplit]

theorem processSlot_marked (c : VCell) (hwf : WellFormed c) (d : ℤ × ℤ)
    (hd : vD c d) (M : Set (ℤ × ℤ)) (fuel : ℕ) (ed : Ed)
    (polys : List String) (tris : List (ℤ × ℤ × ℤ)) (marks : List (ℤ × ℤ))
    (hEd : EdMatch c ed M) (hdM : d ∈ M) :
    processSlot c fuel ⟨ed, polys, tris, marks⟩ d.1 d.2 =
      some ⟨ed, polys, tris, marks⟩ := by
  apply processSlot_skip
  have h1 : ed d.1 d.2 = -1 - c.ed d.1 d.2 := hEd.1 d hdM
  have h2 : 0 ≤ c.ed d.1 d.2 := (wf_tgt c hwf d hd).1
  omega

theorem walkMarks_nodup (c : VCell) (d0 : ℤ × ℤ) (L : ℕ)
    (hdst : ∀ a b, a < b → b < L → (fnext c)^[a] d0 ≠ (fnext c)^[b] d0) :
    (walkMarks c d0 0 L).Nodup := by
  unfold walkMarks
  refine List.Nodup.map_on ?_ (List.nodup_range L)
  intro x hx y hy hxy
  simp only [List.mem_range] at hx hy
  simp only [Nat.zero_add] at hxy
  by_contra hne
  rcases Nat.lt_or_ge x y with h | h
  · exact hdst x y h hy hxy
  · have h2 : y < x := by omega
    exact hdst y x h2 hx hxy.symm

theorem LoopInv_extend (c : VCell) (hwf : WellFormed c) (d0 : ℤ × ℤ)
    (hd0 : vD c d0) (M : Set (ℤ × ℤ)) (L : ℕ) (hL1 : 1 ≤ L)
    (_hLc : L ≤ dartCount c) (hLp : (fnext c)^[L] d0 = d0)
    (hdst : ∀ a b, a < b → b < L → (fnext c)^[a] d0 ≠ (fnext c)^[b] d0)
    (hdis : ∀ u, u < L → (fnext c)^[u] d0 ∉ M)
    (hMv : ∀ d ∈ M, vD c d) (hMc : FClosed c M)
    (marks : List (ℤ × ℤ)) (hNodup : marks.Nodup)
    (hcorr : ∀ d, d ∈ marks ↔ d ∈ M)
    (tris : List (ℤ × ℤ × ℤ)) (hTris : TrisInv c tris M)
    (polys : List String) (hpolys : polys = tris.map (renderTri c))
    (ed2 : Ed) (hed2 : EdMatch c ed2 (M ∪ orbitTo c d0 L)) :
    LoopInv c ⟨ed2, polys ++ (walkTris c d0 1 (L - 2)).map (renderTri c),
      tris ++ walkTris c d0 1 (L - 2), marks ++ walkMarks c d0 0 L⟩
      (M ∪ orbitTo c d0 L) := by
  have horbv : ∀ d ∈ orbitTo c d0 L, vD c d := by
    rintro d ⟨u, hu, rfl⟩
    exact vD_iterate c hwf d0 hd0 u
  refine ⟨hed2, ?_, ?_, ?_, ?_, ⟨?_, ?_⟩, ?_⟩
  · intro d hd
    rcases hd with hm | ho
    · exact hMv d hm
    · exact horbv d ho
  · -- FClosed
    rintro d (hm | ⟨u, hu, rfl⟩)
    · exact Or.inl (hMc d hm)
    · right
      rw [← Function.iterate_succ_apply' (fnext c) u d0]
      rcases Nat.lt_or_ge (u + 1) L with h | h
      · exact ⟨u + 1, h, rfl⟩
      · rw [show u.succ = L by omega, hLp]
        exact ⟨0, by omega, rfl⟩
  · -- marks Nodup
    refine List.Nodup.append hNodup (walkMarks_nodup c d0 L hdst) ?_
    intro a ha hb
    have haM : a ∈ M := (hcorr a).mp ha
    obtain ⟨u, hu, hue⟩ := (mem_walkMarks c d0 0 L a).mp hb
    rw [Nat.zero_add] at hue
    exact hdis u hu (hue ▸ haM)
  · -- marks correspondence
    intro d
    rw [List.mem_append, mem_walkMarks]
    constructor
    · rintro (hm | ⟨u, hu, hue⟩)
      · exact Or.inl ((hcorr d).mp hm)
      · rw [Nat.zero_add] at hue
        exact Or.inr ⟨u, hu, hue⟩
    · rintro (hm | ⟨u, hu, hue⟩)
      · exact Or.inl ((hcorr d).mpr hm)
      · exact Or.inr ⟨u, by omega, by rw [Nat.zero_add]; exact hue⟩
  · -- TrisInv part 1
    intro t ht
    rcases List.mem_append.mp ht with hm | hnew
    · obtain ⟨d, hd1, hd2, hd3, hd4⟩ := hTris.1 t hm
      exact ⟨d, hd1, Or.inl hd2, hd3, hd4⟩
    · obtain ⟨u, hu, hue⟩ := (mem_walkTris c d0 1 (L - 2) t).mp hnew
      refine ⟨(fnext c)^[1 + u] d0, vD_iterate c hwf d0 hd0 _,
        Or.inr ⟨1 + u, by omega, rfl⟩, ?_, ?_⟩
      · rw [← hue]
      · rw [← hue]
  · -- TrisInv part 2: key Nodup
    rw [List.map_append]
    refine List.Nodup.append hTris.2 ?_ ?_
    · -- new keys are Nodup
      unfold walkTris
      rw [List.map_map]
      refine List.Nodup.map_on ?_ (List.nodup_range (L - 2))
      intro x hx y hy hxy
      simp only [List.mem_range] at hx hy
      simp only [Function.comp_apply] at hxy
      have hkey : (((fnext c)^[1 + x] d0).1, tgt c ((fnext c)^[1 + x] d0)) =
          (((fnext c)^[1 + y] d0).1, tgt c ((fnext c)^[1 + y] d0)) := hxy
      injection hkey with hk1 hk2
      have heq : (fnext c)^[1 + x] d0 = (fnext c)^[1 + y] d0 :=
        wf_noparallel c hwf _ _ (vD_iterate c hwf d0 hd0 _)
          (vD_iterate c hwf d0 hd0 _) hk1 hk2
      by_contra hne
      rcases Nat.lt_or_ge x y with h | h
      · exact hdst (1 + x) (1 + y) (by omega) (by omega) heq
      · have h2 : y < x := by omega
        exact hdst (1 + y) (1 + x) (by omega) (by omega) heq.symm
    · -- old keys disjoint from new keys
      intro k hkold hknew
      obtain ⟨t, htm, hte⟩ := List.mem_map.mp hkold
      obtain ⟨t2, ht2m, ht2e⟩ := List.mem_map.mp hknew
      obtain ⟨dOld, hv1, hv2, hv3, hv4⟩ := hTris.1 t htm
      obtain ⟨u, hu, hue⟩ := (mem_walkTris c d0 1 (L - 2) t2).mp ht2m
      have hdNew : vD c ((fnext c)^[1 + u] d0) := vD_iterate c hwf d0 hd0 _
      have hk1 : dOld.1 = ((fnext c)^[1 + u] d0).1 := by
        rw [hv3]
        have e1 : t.2.1 = k.1 := by rw [← hte]
        have e2 : t2.2.1 = k.1 := by rw [← ht2e]
        rw [e1, ← e2, ← hue]
      have hk2 : tgt c dOld = tgt c ((fnext c)^[1 + u] d0) := by
        rw [hv4]
        have e1 : t.2.2 = k.2 := by rw [← hte]
        have e2 : t2.2.2 = k.2 := by rw [← ht2e]
        rw [e1, ← e2, ← hue]
      have heq : dOld = (fnext c)^[1 + u] d0 :=
        wf_noparallel c hwf _ _ hv1 hdNew hk1 hk2
      exact hdis (1 + u) (by omega) (heq ▸ hv2)
  · -- polys equation
    rw [List.map_append, hpolys]

theorem slotLoop_spec (c : VCell) (hwf : WellFormed c) (ii : ℤ) :
    ∀ (l : List ℤ) (st : XState) (M : Set (ℤ × ℤ)),
      LoopInv c st M → (∀ jj ∈ l, vD c (ii, jj)) →
      ∀ fuel, dartCount c < fuel →
      ∃ st2 M2, slotLoop c fuel ii l st = some st2 ∧ LoopInv c st2 M2 ∧
        M ⊆ M2 ∧ ∀ jj ∈ l, (ii, jj) ∈ M2 := by
  intro l
  induction l with
  | nil =>
    intro st M hInv hval fuel hfuel
    refine ⟨st, M, rfl, hInv, subset_rfl, ?_⟩
    intro jj h
    cases h
  | cons jj rest ih =>
    intro st M hInv hval fuel hfuel
    obtain ⟨ed, polys, tris, marks⟩ := st
    have hdj : vD c (ii, jj) := hval jj (by simp)
    by_cases hmem : (ii, jj) ∈ M
    · have hskip := processSlot_marked c hwf (ii, jj) hdj M fuel ed polys
        tris marks hInv.1 hmem
      have hskip2 : processSlot c fuel ⟨ed, polys, tris, marks⟩ ii jj =
          some ⟨ed, polys, tris, marks⟩ := hskip
      obtain ⟨st2, M2, hrun, hInv2, hsub, hcov⟩ := ih ⟨ed, polys, tris,
        marks⟩ M hInv (fun j hj => hval j (by simp [hj])) fuel hfuel
      refine ⟨st2, M2, ?_, hInv2, hsub, ?_⟩
      · rw [slotLoop, hskip2]
        exact hrun
      · intro j hj
        rcases List.mem_cons.mp hj with rfl | hj2
        · exact hsub hmem
        · exact hcov j hj2
    · obtain ⟨L, hL1, hLc, hLp, hdst⟩ :=
        exists_min_period c hwf (ii, jj) hdj
      have hdis : ∀ u, u < L → (fnext c)^[u] (ii, jj) ∉ M :=
        orbit_disjoint c M hInv.2.2.1 (ii, jj) hmem L hLp
      obtain ⟨ed2, hed2, hrun1⟩ := processSlot_spec c hwf (ii, jj) hdj M
        hInv.2.1 L hL1 hLc hLp hdst hdis fuel hfuel ed polys tris marks
        hInv.1
      have hrun1b : processSlot c fuel ⟨ed, polys, tris, marks⟩ ii jj =
          some ⟨ed2,
            polys ++ (walkTris c (ii, jj) 1 (L - 2)).map (renderTri c),
            tris ++ walkTris c (ii, jj) 1 (L - 2),
            marks ++ walkMarks c (ii, jj) 0 L⟩ := hrun1
      have hInv2 := LoopInv_extend c hwf (ii, jj) hdj M L hL1 hLc hLp hdst
        hdis hInv.2.1 hInv.2.2.1 marks hInv.2.2.2.1 hInv.2.2.2.2.1 tris
        hInv.2.2.2.2.2.1 polys hInv.2.2.2.2.2.2 ed2 hed2
      obtain ⟨st3, M3, hrun2, hInv3, hsub2, hcov2⟩ := ih _ _ hInv2
        (fun j hj => hval j (by simp [hj])) fuel hfuel
      refine ⟨st3, M3, ?_, hInv3, ?_, ?_⟩
      · rw [slotLoop, hrun1b]
        exact hrun2
      · exact subset_trans Set.subset_union_left hsub2
      · intro j hj
        rcases List.mem_cons.mp hj with rfl | hj2
        · apply hsub2
          right
          exact ⟨0, by omega, rfl⟩
        · exact hcov2 j hj2

theorem vertLoop_spec (c : VCell) (hwf : WellFormed c) :
    ∀ (l : List ℤ) (st : XState) (M : Set (ℤ × ℤ)),
      LoopInv c st M → (∀ ii ∈ l, 0 ≤ ii ∧ ii < c.p) →
      ∀ fuel, dartCount c < fuel →
      ∃ st2 M2, vertLoop c fuel l st = some st2 ∧ LoopInv c st2 M2 ∧
        M ⊆ M2 ∧
        ∀ ii ∈ l, ∀ jj, 0 ≤ jj → jj < c.nu ii → (ii, jj) ∈ M2 := by
  intro l
  induction l with
  | nil =>
    intro st M hInv hrows fuel hfuel
    refine ⟨st, M, rfl, hInv, subset_rfl, ?_⟩
    intro ii h
    cases h
  | cons ii rest ih =>
    intro st M hInv hrows fuel hfuel
    obtain ⟨hrow0, hrow1⟩ := hrows ii (by simp)
    have hval : ∀ jj ∈ intRange 0 (c.nu ii), vD c (ii, jj) := by
      intro jj hjj
      obtain ⟨h1, h2⟩ := (mem_intRange 0 (c.nu ii) jj).mp hjj
      exact ⟨hrow0, hrow1, h1, h2⟩
    obtain ⟨st2, M2, hrun1, hInv2, hsub1, hcov1⟩ := slotLoop_spec c hwf ii
      (intRange 0 (c.nu ii)) st M hInv hval fuel hfuel
    obtain ⟨st3, M3, hrun2, hInv3, hsub2, hcov2⟩ := ih st2 M2 hInv2
      (fun i hi => hrows i (by simp [hi])) fuel hfuel
    refine ⟨st3, M3, ?_, hInv3, subset_trans hsub1 hsub2, ?_⟩
    · rw [vertLoop, hrun1]
      exact hrun2
    · intro i hi jj hjj1 hjj2
      rcases List.mem_cons.mp hi with rfl | hi2
      · apply hsub2
        apply hcov1
        exact (mem_intRange 0 (c.nu i) jj).mpr ⟨hjj1, hjj2⟩
      · exact hcov2 i hi2 jj hjj1 hjj2

theorem extract_spec (c : VCell) (hwf : WellFormed c) :
    ∃ st M, extractFaces c = some st ∧ LoopInv c st M ∧
      ∀ d, vD c d → d ∈ M := by
  have hInit : LoopInv c ⟨c.ed, [], [], []⟩ (∅ : Set (ℤ × ℤ)) := by
    refine ⟨⟨?_, ?_⟩, ?_, ?_, ?_, ?_, ⟨?_, ?_⟩, ?_⟩
    · intro d hd
      cases hd
    · intro v s _
      rfl
    · intro d hd
      cases hd
    · intro d hd
      cases hd
    · exact List.nodup_nil
    · intro d
      simp
    · intro t ht
      cases ht
    · simp
    · rfl
  obtain ⟨st, M, hrun, hInv, hsub, hcov⟩ := vertLoop_spec c hwf
    (intRange 1 c.p) ⟨c.ed, [], [], []⟩ ∅ hInit
    (by
      intro i hi
      have h2 := (mem_intRange 1 c.p i).mp hi
      exact ⟨by omega, h2.2⟩)
    (dartCount c + 1) (by omega)
  refine ⟨st, M, ?_, hInv, ?_⟩
  · unfold extractFaces
    exact hrun
  · intro d hd
    have hMk : ∀ e, vD c e → 1 ≤ e.1 → e ∈ M := by
      intro e he h1
      have h2 := hcov e.1 ((mem_intRange 1 c.p e.1).mpr ⟨h1, he.2.1⟩) e.2
        he.2.2.1 he.2.2.2
      rwa [Prod.mk.eta] at h2
    rcases lt_or_le d.1 1 with h0 | h1
    · have he : vD c (fnext c d) := vD_fnext c hwf d hd
      have hne : tgt c d ≠ d.1 := wf_noloop c hwf d hd
      have h1e : 1 ≤ (fnext c d).1 := by
        have h2 : 0 ≤ tgt c d := (wf_tgt c hwf d hd).1
        have h3 : (fnext c d).1 = tgt c d := rfl
        have h4 : 0 ≤ d.1 := hd.1
        omega
      have heM : fnext c d ∈ M := hMk (fnext c d) he h1e
      obtain ⟨L, hL1, hLc2, hLp, hmin⟩ := exists_min_period c hwf d hd
      have hiter : (fnext c)^[L - 1] (fnext c d) = d := by
        have h5 : (fnext c)^[L - 1] ((fnext c)^[1] d) = (fnext c)^[L] d := by
          rw [← Function.iterate_add_apply, show L - 1 + 1 = L by omega]
        rw [Function.iterate_one] at h5
        rw [h5, hLp]
      have h6 := FClosed.iterate c M hInv.2.2.1 (fnext c d) heM (L - 1)
      rwa [hiter] at h6
    · exact hMk d hd h1

/-- C3: on a well-formed cell, the face-extraction traversal consumes every
directed edge of the topology table exactly once: the trace of marked
directed edges has no repetition and lists exactly the valid darts, the
emitted triples are pairwise distinct (already on their `(kk, mm)` edge
components), and the polygon strings are precisely the renderings of those
triples, so no face polygon is emitted twice. -/
theorem extraction_marks_each_dart_once (c : VCell) (hwf : WellFormed c) :
    ∃ st, extractFaces c = some st ∧ st.marks.Nodup ∧
      (∀ d, d ∈ st.marks ↔ vD c d) ∧
      (st.tris.map fun t => (t.2.1, t.2.2)).Nodup ∧ st.tris.Nodup ∧
      st.polys = st.tris.map (renderTri c) := by
  obtain ⟨st, M, hrun, hInv, hcov⟩ := extract_spec c hwf
  refine ⟨st, hrun, hInv.2.2.2.1, ?_, hInv.2.2.2.2.2.1.2, ?_,
    hInv.2.2.2.2.2.2⟩
  · intro d
    constructor
    · intro hm
      exact hInv.2.1 d ((hInv.2.2.2.2.1 d).mp hm)
    · intro hv
      exact (hInv.2.2.2.2.1 d).mpr (hcov d hv)
  · exact List.Nodup.of_map _ hInv.2.2.2.2.2.1.2

/-- C10: on a well-formed topology table, every inner face walk terminates
within the fuel bound (each iteration marks a previously unmarked directed
edge, of which there are only `dartCount c`), so extraction returns a
result. -/
theorem face_walks_terminate (c : VCell) (hwf : WellFormed c) :
    (extractFaces c).isSome := by
  obtain ⟨st, M, hrun, _, _⟩ := extract_spec c hwf
  rw [hrun]
  rfl

/-- Witness for C3 at the concrete well-formed tetrahedron cell. -/
theorem extraction_marks_each_dart_once_witness :
    ∃ st, extractFaces tetraCell = some st ∧ st.marks.Nodup ∧
      (∀ d, d ∈ st.marks ↔ vD tetraCell d) ∧
      (st.tris.map fun t => (t.2.1, t.2.2)).Nodup ∧ st.tris.Nodup ∧
      st.polys = st.tris.map (renderTri tetraCell) :=
  extraction_marks_each_dart_once tetraCell (by decide)

/-- Witness for C10 at the concrete well-formed tetrahedron cell. -/
theorem face_walks_terminate_witness :
    (extractFaces tetraCell).isSome :=
  face_walks_terminate tetraCell (by decide)

/-- Witness for C7: the four rings emitted for the tetrahedron cell. -/
theorem rings_closed_witness :
    extractPolys tetraCell =
      some ["((b, a, c, b))", "((b, d, a, b))", "((b, c, d, b))",
        "((c, a, d, c))"] ∧
    ∀ poly ∈ ["((b, a, c, b))", "((b, d, a, b))", "((b, c, d, b))",
        "((c, a, d, c))"], RingClosed poly :=
  ⟨by decide, rings_closed tetraCell _ (by decide)⟩

end Voro3d
